import Mathlib

/-!
Shallow embedding of the rip dependency-resolution pipeline
(crates/rip/src/main.rs, crates/rattler_installs_packages/src/sdist.rs,
crates/rattler_installs_packages/src/system_python.rs) together with
theorems checking the design specification against it.

Pure data and control flow are translated directly from the Rust source.
Components that the repository consumes as external collaborators (the
PEP 440 version grammar, the PEP 508 marker evaluator, the specifier
predicate, the core-metadata decoder) are modelled from the
specification and marked as such in their doc comments.
-/

/-- Modelled from the spec: a PEP 440 version, section 3 of the design
document: (epoch, release-segments, pre, post, dev, local).  The claims
only inspect the pre and dev components; the pre component carries the
phase (a, b, rc encoded as a number) and its number. -/
structure Version where
  epoch : Nat
  release : List Nat
  pre : Option (Nat × Nat)
  post : Option Nat
  dev : Option Nat
  localSegments : List Nat
  deriving DecidableEq, Repr

/-- Helper to build a plain release version such as 1.2.3. -/
def Version.stable (release : List Nat) : Version :=
  { epoch := 0, release := release, pre := none, post := none, dev := none,
    localSegments := [] }

/-- Kind of a published artifact, the information that the Rust side
queries through ArtifactInfo::is with the Wheel and SDist readers. -/
inductive ArtifactKind where
  | wheel
  | sdist
  deriving DecidableEq, Repr

/-- Yanked flag of an artifact, from the data model (ArtifactInfo.yanked:
a record with the boolean and an optional reason). -/
structure Yanked where
  yanked : Bool
  reason : Option String
  deriving DecidableEq, Repr

/-- Information the index publishes about a single artifact, restricted to
the fields the discovery engine reads: the artifact kind (a.is with the
Wheel reader), the version encoded in the filename (a.filename.version())
and the yanked record (a.yanked.yanked). -/
structure ArtifactInfo where
  kind : ArtifactKind
  filename_version : Version
  yanked : Yanked
  deriving DecidableEq, Repr

/-- Modelled from the spec: a PEP 508 environment-marker expression, a
boolean tree over environment keys (section 3).  A leaf compares the
value of an environment key against a string literal. -/
inductive MarkerExpr where
  | keyEq (key : String) (lit : String)
  | conj (l r : MarkerExpr)
  | disj (l r : MarkerExpr)
  deriving DecidableEq, Repr

/-- Modelled from the spec: marker evaluation against a caller-supplied
environment map; an unknown key in an expression is a marker evaluation
error (section 6).  The error payload is the offending key. -/
def MarkerExpr.eval (env : List (String × String)) : MarkerExpr → Except String Bool
  | .keyEq key lit =>
    match List.lookup key env with
    | some v => .ok (v == lit)
    | none => .error key
  | .conj l r => do
    let a ← MarkerExpr.eval env l
    let b ← MarkerExpr.eval env r
    pure (a && b)
  | .disj l r => do
    let a ← MarkerExpr.eval env l
    let b ← MarkerExpr.eval env r
    pure (a || b)

/-- Modelled from the spec: a specifier operator, op from the set
==, !=, <, <=, >, >=, ~=, === (section 3). -/
inductive Op where
  | eq
  | ne
  | lt
  | le
  | gt
  | ge
  | compatible
  | arbitraryEq
  deriving DecidableEq, Repr

/-- Modelled from the spec: Specifiers is an ordered conjunction of
(op, version) clauses (section 3). -/
def Specifiers := List (Op × Version)

instance : DecidableEq Specifiers := by
  unfold Specifiers
  infer_instance

/-- Modelled from the spec: satisfied_by evaluates the conjunction of the
clauses and may fail (bool | error); the empty specifier set is satisfied
by every version.  The semantics of an individual clause belongs to the
external version-grammar collaborator and is therefore a parameter. -/
def Specifiers.satisfied_by (clauseEval : Op → Version → Version → Except String Bool)
    (specs : Specifiers) (v : Version) : Except String Bool :=
  specs.foldlM (fun acc clause => do
    let b ← clauseEval clause.1 clause.2 v
    pure (acc && b)) true

/-- The solver-facing version-set wrapper from main.rs (struct
PypiVersionSet over Specifiers). -/
structure PypiVersionSet where
  specifiers : Specifiers

/-- From main.rs, impl VersionSet for PypiVersionSet: contains matches on
satisfied_by, logs and returns false on an error, and returns the boolean
on success. -/
def PypiVersionSet.contains (clauseEval : Op → Version → Version → Except String Bool)
    (s : PypiVersionSet) (v : Version) : Bool :=
  match Specifiers.satisfied_by clauseEval s.specifiers v with
  | .error _ => false
  | .ok result => result

/-- A single requirement as consumed by the discovery engine: the fields
of Requirement read in main.rs (name, specifiers, env_marker_expr). -/
structure Requirement where
  name : String
  specifiers : Specifiers
  env_marker_expr : Option MarkerExpr

/-- Core metadata restricted to the fields the claims touch: the decoded
Metadata-Version as a (major, minor) pair and the Requires-Dist list. -/
structure WheelCoreMetadata where
  metadata_version : Nat × Nat
  requires_dist : List Requirement

/-- Modelled from the spec: a metadata version implements PEP 643 when
(major, minor) is at least (2, 2) in the lexicographic order
(section 3; MetadataVersion::implements_pep643 lives in the
core-metadata module, which is not part of the sources). -/
def implements_pep643 (v : Nat × Nat) : Bool :=
  decide (2 < v.1) || (decide (v.1 = 2) && decide (2 ≤ v.2))

/-- A source distribution archive, modelled as the list of its entries:
each entry is a path (as a component list) paired with the raw bytes.
The streaming and locking aspects of sdist.rs are not observable in a
pure model. -/
structure SDist where
  entries : List (List String × List UInt8)

/-- From sdist.rs, SDist::find_entry: the first entry whose path ends
with the requested name wins (Path::ends_with matches on whole trailing
components). -/
def SDist.find_entry (s : SDist) (name : String) : Option (List UInt8) :=
  match s.entries.find? (fun e => [name].isSuffixOf e.1) with
  | some e => some e.2
  | none => none

/-- From sdist.rs, SDist::read_package_info: locate PKG-INFO and decode
it; a missing entry or a failing decode is an error.  The core-metadata
decoder (WheelCoreMetadata::try_from) is an external collaborator and is
a parameter; archive read errors are likewise collapsed into the failure
case. -/
def SDist.read_package_info (decode : List UInt8 → Option WheelCoreMetadata)
    (s : SDist) : Except String (List UInt8 × WheelCoreMetadata) :=
  match s.find_entry "PKG-INFO" with
  | some bytes =>
    match decode bytes with
    | some metadata => .ok (bytes, metadata)
    | none => .error "failed to decode PKG-INFO"
  | none => .error "no PKG-INFO found in archive"

/-- From sdist.rs, SDist::pep643_metadata: take read_package_info,
discard its error into absence, and keep the result only when the
metadata version implements PEP 643. -/
def SDist.pep643_metadata (decode : List UInt8 → Option WheelCoreMetadata)
    (s : SDist) : Option (List UInt8 × WheelCoreMetadata) :=
  match s.read_package_info decode with
  | .error _ => none
  | .ok (bytes, metadata) =>
    if implements_pep643 metadata.metadata_version then
      some (bytes, metadata)
    else
      none

/-- The two package-database operations the discovery engine calls
(PackageDb::available_artifacts and PackageDb::get_metadata in main.rs).
Both are network operations of the external package database and are
therefore fields of the model. -/
structure PackageDb where
  available_artifacts : String → Except String (List (Version × List ArtifactInfo))
  get_metadata : List ArtifactInfo → Except String WheelCoreMetadata

/-- The environment map built in recursively_get_metadata (main.rs,
the HashMap::from_iter literal). -/
def markerEnv : List (String × String) :=
  [("os_name", ""),
   ("sys_platform", ""),
   ("platform_machine", ""),
   ("platform_python_implementation", ""),
   ("platform_release", ""),
   ("platform_system", ""),
   ("platform_version", ""),
   ("python_version", "3.9"),
   ("python_full_version", ""),
   ("implementation_name", ""),
   ("implementation_version", ""),
   ("extra", "")]

/-- State threaded through the discovery loop of recursively_get_metadata:
the work queue, the seen set (kept as a list in insertion order, so that
it is also the history of every name ever enqueued: the roots followed by
each pushed name), the interned solvables (package name, version) in
interning order, and the dependency entries (solvable, version set). -/
structure DiscoverState where
  queue : List String
  seen : List String
  solvables : List (String × Version)
  dependencies : List ((String × Version) × (String × Specifiers))
  deriving DecidableEq

/-- Initial state of recursively_get_metadata: queue from the requested
packages, seen initialised from the queue. -/
def initState (packages : List String) : DiscoverState :=
  { queue := packages, seen := packages, solvables := [], dependencies := [] }

/-- Body of the requirement loop in recursively_get_metadata: evaluate
the environment marker if present (an evaluation error propagates, a
false marker skips the requirement), then enqueue the name if unseen and
record the dependency. -/
def processRequirement (env : List (String × String)) (st : DiscoverState)
    (solvable : String × Version) (requirement : Requirement) :
    Except String DiscoverState := do
  match requirement.env_marker_expr with
  | some env_marker =>
    let b ← env_marker.eval env
    if !b then
      pure st
    else
      pure (addRequirement st solvable requirement)
  | none => pure (addRequirement st solvable requirement)
where
  /-- The part after the marker check: push to the queue and the seen set
  when the name is new, then append the dependency entry. -/
  addRequirement (st : DiscoverState) (solvable : String × Version)
      (requirement : Requirement) : DiscoverState :=
    let st :=
      if st.seen.contains requirement.name then
        st
      else
        { st with
          queue := st.queue ++ [requirement.name],
          seen := st.seen ++ [requirement.name] }
    { st with
      dependencies :=
        st.dependencies ++ [(solvable, (requirement.name, requirement.specifiers))] }

/-- Body of the per-version loop in recursively_get_metadata: filter the
artifacts down to wheels without a pre or dev component in the filename
version; skip the version when none survives; then skip the version when
every artifact of the full list is yanked (the yanked filter runs over
artifacts, not over the filtered list); otherwise fetch the metadata for
the full artifact list (an error is fatal), intern the solvable and fold
the requirements. -/
def processVersion (db : PackageDb) (env : List (String × String)) (package : String)
    (st : DiscoverState) (version : Version) (artifacts : List ArtifactInfo) :
    Except String DiscoverState :=
  let available_artifacts :=
    (artifacts.filter (fun a => a.kind == ArtifactKind.wheel)).filter
      (fun a => a.filename_version.pre.isNone && a.filename_version.dev.isNone)
  if available_artifacts.isEmpty then
    .ok st
  else
    let non_yanked_artifacts := artifacts.filter (fun a => !a.yanked.yanked)
    if non_yanked_artifacts.isEmpty then
      .ok st
    else
      match db.get_metadata artifacts with
      | .error e => .error e
      | .ok metadata =>
        let st := { st with solvables := st.solvables ++ [(package, version)] }
        metadata.requires_dist.foldlM
          (fun st r => processRequirement env st (package, version) r) st

/-- Body of the outer while loop of recursively_get_metadata for one
popped package: an error from available_artifacts is logged and the
package is skipped (the state is returned unchanged), otherwise every
(version, artifacts) pair is processed in order. -/
def processPackage (db : PackageDb) (env : List (String × String))
    (st : DiscoverState) (package : String) : Except String DiscoverState :=
  match db.available_artifacts package with
  | .error _ => .ok st
  | .ok artifacts =>
    artifacts.foldlM (fun st va => processVersion db env package st va.1 va.2) st

/-- The while loop of recursively_get_metadata, driven by explicit fuel:
pop the front of the queue and process the package; the loop ends when
the queue is empty. -/
def discoverLoop (db : PackageDb) (env : List (String × String)) :
    Nat → DiscoverState → Except String DiscoverState
  | 0, st => .ok st
  | fuel + 1, st =>
    match st.queue with
    | [] => .ok st
    | package :: rest =>
      match processPackage db env { st with queue := rest } package with
      | .error e => .error e
      | .ok st => discoverLoop db env fuel st

/-- Entry point modelling recursively_get_metadata: run the discovery
loop from the initial state over the requested packages. -/
def recursively_get_metadata (db : PackageDb) (packages : List String)
    (fuel : Nat) : Except String DiscoverState :=
  discoverLoop db markerEnv fuel (initState packages)

/-- From main.rs, PypiDependencyProvider::sort_candidates: sort with the
comparator that compares the two versions in reverse (b.cmp(a)), so from
highest to lowest.  The PEP 440 comparison itself belongs to the external
version grammar, so the definition is generic over a linear order. -/
def sort_candidates {α : Type} [LinearOrder α] (solvables : List α) : List α :=
  solvables.mergeSort (fun a b => decide (b ≤ a))

/-- Errors of PythonInterpreterVersion::from_python_output
(system_python.rs).  Rust strings are modelled as character lists so that
the parser is fully computable. -/
inductive ParsePythonInterpreterVersionError where
  | invalidVersion (s : List Char)
  | findPythonError
  deriving DecidableEq, Repr

/-- The parsed interpreter version (system_python.rs). -/
structure PythonInterpreterVersion where
  major : Nat
  minor : Nat
  patch : Nat
  deriving DecidableEq, Repr

/-- Rust str::split_whitespace: the maximal runs of non-whitespace
characters, with empty tokens dropped. -/
def splitWhitespaceAux : List Char → List Char → List (List Char)
  | [], acc => if acc.isEmpty then [] else [acc.reverse]
  | c :: rest, acc =>
    if c.isWhitespace then
      if acc.isEmpty then
        splitWhitespaceAux rest []
      else
        acc.reverse :: splitWhitespaceAux rest []
    else
      splitWhitespaceAux rest (c :: acc)

/-- Rust str::split_whitespace over a character list. -/
def splitWhitespace (s : List Char) : List (List Char) :=
  splitWhitespaceAux s []

/-- Rust str::split with a single separator character: the fields between
separators, empty fields kept. -/
def splitOnCharAux (sep : Char) : List Char → List Char → List (List Char)
  | [], acc => [acc.reverse]
  | c :: rest, acc =>
    if c = sep then
      acc.reverse :: splitOnCharAux sep rest []
    else
      splitOnCharAux sep rest (c :: acc)

/-- Rust str::split with a single separator character. -/
def splitOnChar (sep : Char) (s : List Char) : List (List Char) :=
  splitOnCharAux sep s []

/-- Rust str::parse for u32: an optional leading plus sign, then at least
one decimal digit, and the value must fit in 32 bits. -/
def parseU32 (s : List Char) : Option Nat :=
  let digits :=
    match s with
    | '+' :: rest => rest
    | _ => s
  if digits.isEmpty then
    none
  else if digits.all (fun c => c.isDigit) then
    let n := digits.foldl (fun acc c => acc * 10 + (c.toNat - 48)) 0
    if n < 4294967296 then some n else none
  else
    none

/-- From system_python.rs, PythonInterpreterVersion::from_python_output:
split on whitespace, demand the first token to be exactly Python, split
the second token on dots and parse major, minor and patch; every missing
token or failing parse is InvalidVersion carrying the whole input. -/
def PythonInterpreterVersion.from_python_output (version_str : List Char) :
    Except ParsePythonInterpreterVersionError PythonInterpreterVersion :=
  match splitWhitespace version_str with
  | [] => .error (.invalidVersion version_str)
  | first :: rest =>
    if first ≠ ['P', 'y', 't', 'h', 'o', 'n'] then
      .error (.invalidVersion version_str)
    else
      match rest with
      | [] => .error (.invalidVersion version_str)
      | version :: _ =>
        match splitOnChar '.' version with
        | [] => .error (.invalidVersion version_str)
        | [_] => .error (.invalidVersion version_str)
        | [_, _] => .error (.invalidVersion version_str)
        | major :: minor :: patch :: _ =>
          match parseU32 major, parseU32 minor, parseU32 patch with
          | some a, some b, some c => .ok { major := a, minor := b, patch := c }
          | _, _, _ => .error (.invalidVersion version_str)

/-- Outcome of the infrastructure and solving phase of actual_main
(main.rs): either an infrastructural error propagated through the
question-mark operator (cache directory, artifact fetch, metadata fetch,
marker evaluation), or an unsatisfiable result from the solver, or a
solved transaction. -/
inductive SolveOutcome where
  | infraError (message : String)
  | unsat (conflict : String)
  | solved (artifacts : List (String × Version))

/-- Result of running actual_main (main.rs): the returned Result and the
lines actual_main itself writes to stderr.  On an unsatisfiable solve the
conflict is printed to stderr and Ok is returned; stdout reporting of a
solved run is not modelled. -/
structure MainRun where
  result : Except String Unit
  stderrLines : List String

/-- From main.rs, actual_main: an error reaching the question-mark chain
is returned as Err; an unsatisfiable solver result prints the conflict to
stderr and returns Ok. -/
def actual_main (o : SolveOutcome) : MainRun :=
  match o with
  | .infraError message => { result := .error message, stderrLines := [] }
  | .unsat conflict =>
    { result := .ok (),
      stderrLines := [String.append "Could not solve:\n" conflict] }
  | .solved _ => { result := .ok (), stderrLines := [] }

/-- From main.rs, main: await actual_main, print an Err to stderr, and
return unit either way, so the process exit code is 0 in every case.
The model returns the exit code and the accumulated stderr lines (the
name main itself is reserved in Lean). -/
def mainProcess (o : SolveOutcome) : Nat × List String :=
  let run := actual_main o
  match run.result with
  | .error e => (0, run.stderrLines ++ [e])
  | .ok _ => (0, run.stderrLines)

/-- Closure of a package database under a finite name universe: every
requirement name occurring in any successfully fetched metadata lies in
the universe.  This is the finiteness hypothesis of the termination
argument (the reachable subgraph of the index is bounded). -/
def ClosedDb (db : PackageDb) (univ : List String) : Prop :=
  ∀ artifacts m, db.get_metadata artifacts = .ok m → ∀ r ∈ m.requires_dist, r.name ∈ univ

/-- Well-formedness of the index data: the version encoded in an
artifact filename agrees with the version the artifact is listed
under. -/
def WellFormedDb (db : PackageDb) : Prop :=
  ∀ p l, db.available_artifacts p = .ok l → ∀ va ∈ l, ∀ a ∈ va.2, a.filename_version = va.1

/-- The seen list only grows by fresh names drawn from the universe. -/
def SeenExt (univ : List String) (st st' : DiscoverState) : Prop :=
  ∃ d, st'.seen = st.seen ++ d ∧ (st.seen ++ d).Nodup ∧ ∀ n ∈ d, n ∈ univ

/-- Effect of the inner loops on queue and seen: both are extended by
the same fresh names, in the same order. -/
def Reach (univ : List String) (st st' : DiscoverState) : Prop :=
  ∃ d, st'.queue = st.queue ++ d ∧ st'.seen = st.seen ++ d ∧
    (st.seen ++ d).Nodup ∧ ∀ n ∈ d, n ∈ univ

/-- Termination measure of the discovery loop: the queue length plus the
number of universe names not yet seen. -/
def discMeasure (univ : List String) (st : DiscoverState) : Nat :=
  st.queue.length + (univ.length - st.seen.length)

/-- A concrete stable version, 1. -/
def vOne : Version := Version.stable [1]

/-- A concrete pre-release version, 2a1. -/
def vPre : Version :=
  { epoch := 0, release := [2], pre := some (0, 1), post := none, dev := none,
    localSegments := [] }

/-- A non-yanked stable wheel at version 1. -/
def okWheel : ArtifactInfo :=
  { kind := .wheel, filename_version := vOne,
    yanked := { yanked := false, reason := none } }

/-- A yanked stable wheel at version 1. -/
def yankedWheel : ArtifactInfo :=
  { kind := .wheel, filename_version := vOne,
    yanked := { yanked := true, reason := none } }

/-- A non-yanked sdist at version 1. -/
def freshSdist : ArtifactInfo :=
  { kind := .sdist, filename_version := vOne,
    yanked := { yanked := false, reason := none } }

/-- A non-yanked wheel at the pre-release version. -/
def preWheel : ArtifactInfo :=
  { kind := .wheel, filename_version := vPre,
    yanked := { yanked := false, reason := none } }

/-- Metadata with no requirements and an old metadata version. -/
def emptyMetadata : WheelCoreMetadata :=
  { metadata_version := (2, 1), requires_dist := [] }

/-- Metadata at exactly metadata version 2.2. -/
def meta22 : WheelCoreMetadata :=
  { metadata_version := (2, 2), requires_dist := [] }

/-- A decoder that accepts every byte string as metadata version 2.2. -/
def decode22 (_bytes : List UInt8) : Option WheelCoreMetadata :=
  some meta22

/-- A one-entry archive containing a PKG-INFO file. -/
def sdistPkgInfo : SDist :=
  { entries := [(["pkg-1.0", "PKG-INFO"], [80, 75])] }

/-- A requirement guarded by a marker over a key absent from the
discovery environment map. -/
def unknownMarkerRequirement : Requirement :=
  { name := "dep", specifiers := [],
    env_marker_expr := some (MarkerExpr.keyEq "machine_arch" "x86_64") }

/-- An index publishing, at version 1, a yanked wheel next to a
non-yanked sdist. -/
def dbRescue : PackageDb :=
  { available_artifacts := fun _ => .ok [(vOne, [yankedWheel, freshSdist])],
    get_metadata := fun _ => .ok emptyMetadata }

/-- An index whose only package carries a requirement with a marker over
an unknown key. -/
def dbMarker : PackageDb :=
  { available_artifacts := fun _ => .ok [(vOne, [okWheel])],
    get_metadata := fun _ =>
      .ok { metadata_version := (2, 1),
            requires_dist := [unknownMarkerRequirement] } }

/-- An index knowing one package with a pre-release version next to a
stable one. -/
def dbPre : PackageDb :=
  { available_artifacts := fun p =>
      if p == "root" then .ok [(vPre, [preWheel]), (vOne, [okWheel])]
      else .error "unknown package",
    get_metadata := fun _ => .ok emptyMetadata }

/-- An index whose artifact listing always fails. -/
def dbOffline : PackageDb :=
  { available_artifacts := fun _ => .error "offline",
    get_metadata := fun _ => .ok emptyMetadata }

/-- An index whose artifact listing succeeds but whose metadata download
always fails. -/
def dbBrokenMetadata : PackageDb :=
  { available_artifacts := fun _ => .ok [(vOne, [okWheel])],
    get_metadata := fun _ => .error "download failed" }

/-- A clause evaluator that always fails, exercising the error path of
satisfied_by. -/
def failEval : Op → Version → Version → Except String Bool :=
  fun _ _ _ => .error "uncomparable"

/-- A one-clause version set. -/
def setOne : PypiVersionSet :=
  { specifiers := [(Op.eq, vOne)] }

/-- The implements-PEP-643 test is the lexicographic comparison against
(2, 2) spelled out. -/
theorem implements_pep643_spelled (v : Nat × Nat) :
    implements_pep643 v = true ↔ (2 < v.1 ∨ (v.1 = 2 ∧ 2 ≤ v.2)) := by
  simp [implements_pep643, Bool.or_eq_true, Bool.and_eq_true, decide_eq_true_eq]

/-- C9: from_python_output decodes "Python 3.8.5" to (3, 8, 5); the
two-component input "Python 3.8" is rejected as InvalidVersion; an input
whose first whitespace token is not exactly "Python", such as
"CPython 3.8.5", is rejected. -/
theorem from_python_output_cases :
    PythonInterpreterVersion.from_python_output "Python 3.8.5".toList =
        .ok { major := 3, minor := 8, patch := 5 } ∧
    PythonInterpreterVersion.from_python_output "Python 3.8".toList =
        .error (.invalidVersion "Python 3.8".toList) ∧
    PythonInterpreterVersion.from_python_output "CPython 3.8.5".toList =
        .error (.invalidVersion "CPython 3.8.5".toList) := by
  refine ⟨by rfl, by rfl, by rfl⟩

/-- C10: PypiVersionSet::contains returns false whenever satisfied_by
fails, and returns the boolean verbatim when it succeeds, so the solver
only ever observes a total boolean membership test. -/
theorem contains_false_on_error :
    ∀ (clauseEval : Op → Version → Version → Except String Bool)
      (s : PypiVersionSet) (v : Version),
    (∀ e, Specifiers.satisfied_by clauseEval s.specifiers v = .error e →
        PypiVersionSet.contains clauseEval s v = false) ∧
    (∀ b, Specifiers.satisfied_by clauseEval s.specifiers v = .ok b →
        PypiVersionSet.contains clauseEval s v = b) := by
  intro clauseEval s v
  constructor
  · intro e h
    simp [PypiVersionSet.contains, h]
  · intro b h
    simp [PypiVersionSet.contains, h]

/-- Witness for C10: a failing clause evaluator on a concrete one-clause
set yields a membership error, and contains collapses it to false. -/
theorem contains_false_on_error_witness :
    Specifiers.satisfied_by failEval setOne.specifiers vOne = .error "uncomparable" ∧
    PypiVersionSet.contains failEval setOne vOne = false := by
  refine ⟨by rfl, (contains_false_on_error failEval setOne vOne).1 "uncomparable" (by rfl)⟩

/-- Counterexample for C3: on an infrastructural failure (for example no
index reachable) main prints the error to stderr and still exits with
code 0, contradicting the claim that a non-zero exit code occurs on
infrastructural failure. -/
theorem infra_failure_exit_code_zero :
    (mainProcess (SolveOutcome.infraError "no index reachable")).1 = 0 ∧
    (mainProcess (SolveOutcome.infraError "no index reachable")).2 =
      ["no index reachable"] := by
  refine ⟨by rfl, by rfl⟩

/-- C3 amended: an unsatisfiable result prints the conflict explanation
to stderr and the process exits with code 0; moreover the exit code is 0
in every case, infrastructural failures included (main prints the error
and returns unit). -/
theorem exit_code_always_zero_and_conflict_on_stderr :
    ∀ o : SolveOutcome, (mainProcess o).1 = 0 ∧
      (∀ c, o = SolveOutcome.unsat c →
        String.append "Could not solve:\n" c ∈ (mainProcess o).2) := by
  intro o
  constructor
  · cases o <;> rfl
  · intro c hc
    subst hc
    simp [mainProcess, actual_main]

/-- Witness for C3: instantiated at a concrete unsatisfiable outcome. -/
theorem exit_code_always_zero_witness :
    String.append "Could not solve:\n" "conflict" ∈
      (mainProcess (SolveOutcome.unsat "conflict")).2 :=
  (exit_code_always_zero_and_conflict_on_stderr (SolveOutcome.unsat "conflict")).2
    "conflict" rfl

/-- C4: pep643_metadata returns the PKG-INFO bytes with the decoded
metadata exactly when read_package_info succeeds on them and the decoded
Metadata-Version is at least (2, 2) lexicographically; a lower version,
a missing PKG-INFO or a failing decode yields absence. -/
theorem pep643_metadata_iff :
    ∀ (decode : List UInt8 → Option WheelCoreMetadata) (s : SDist)
      (bytes : List UInt8) (m : WheelCoreMetadata),
    SDist.pep643_metadata decode s = some (bytes, m) ↔
      (SDist.read_package_info decode s = .ok (bytes, m) ∧
        (2 < m.metadata_version.1 ∨
          (m.metadata_version.1 = 2 ∧ 2 ≤ m.metadata_version.2))) := by
  intro decode s bytes m
  unfold SDist.pep643_metadata
  cases h : s.read_package_info decode with
  | error e =>
    simp
  | ok p =>
    obtain ⟨b, md⟩ := p
    dsimp only
    by_cases him : implements_pep643 md.metadata_version = true
    · rw [if_pos him]
      simp only [Option.some.injEq, Prod.mk.injEq, Except.ok.injEq]
      have hiff := (implements_pep643_spelled md.metadata_version).mp him
      constructor
      · rintro ⟨hb, hmd⟩
        subst hb
        subst hmd
        exact ⟨⟨rfl, rfl⟩, hiff⟩
      · rintro ⟨⟨hb, hmd⟩, _⟩
        exact ⟨hb, hmd⟩
    · rw [if_neg him]
      constructor
      · intro hnone
        cases hnone
      · rintro ⟨hok, hcond⟩
        injection hok with hp
        have hmd : md = m := congrArg Prod.snd hp
        subst hmd
        exact absurd ((implements_pep643_spelled md.metadata_version).mpr hcond) him

/-- Witness for C4: a concrete archive with a PKG-INFO entry decoded at
metadata version 2.2 yields the bytes and metadata. -/
theorem pep643_metadata_iff_witness :
    SDist.pep643_metadata decode22 sdistPkgInfo = some ([80, 75], meta22) :=
  (pep643_metadata_iff decode22 sdistPkgInfo [80, 75] meta22).mpr
    ⟨by rfl, Or.inr ⟨rfl, le_refl 2⟩⟩

/-- Counterexample for C1: a requirement whose marker references the key
machine_arch, absent from the environment map, does not get skipped with
the resolution continuing; instead the evaluation error propagates and
the whole metadata discovery aborts with an error. -/
theorem marker_error_aborts :
    processRequirement markerEnv (initState ["root"]) ("root", vOne)
        unknownMarkerRequirement = .error "machine_arch" ∧
    recursively_get_metadata dbMarker ["root"] 2 = .error "machine_arch" := by
  refine ⟨by rfl, by rfl⟩

/-- C1 amended: a marker whose evaluation fails makes the requirement
processing, and with it the whole resolution, fail with that error; a
requirement is skipped with the state unchanged exactly when its marker
evaluates successfully to false. -/
theorem marker_error_propagates :
    ∀ (env : List (String × String)) (st : DiscoverState)
      (solvable : String × Version) (r : Requirement) (m : MarkerExpr),
    r.env_marker_expr = some m →
    (∀ e, MarkerExpr.eval env m = .error e →
        processRequirement env st solvable r = .error e) ∧
    (MarkerExpr.eval env m = .ok false →
        processRequirement env st solvable r = .ok st) := by
  intro env st solvable r m hm
  constructor
  · intro e he
    simp only [processRequirement, hm, he]
    rfl
  · intro hf
    simp only [processRequirement, hm, hf]
    rfl

/-- Witness for C1: instantiated at the concrete unknown-key marker and
at the environment map of the discovery engine. -/
theorem marker_error_propagates_witness :
    MarkerExpr.eval markerEnv (MarkerExpr.keyEq "machine_arch" "x86_64") =
      .error "machine_arch" ∧
    processRequirement markerEnv (initState []) ("dep-parent", vOne)
        unknownMarkerRequirement = .error "machine_arch" := by
  refine ⟨by rfl, (marker_error_propagates markerEnv (initState []) ("dep-parent", vOne)
    unknownMarkerRequirement (MarkerExpr.keyEq "machine_arch" "x86_64") (by rfl)).1
    "machine_arch" (by rfl)⟩

/-- Bind on Except applied to a success, by unfolding the monad. -/
theorem except_bind_ok {ε α β : Type} (a : α) (f : α → Except ε β) :
    (Except.ok a >>= f : Except ε β) = f a := rfl

/-- Bind on Except applied to an error, by unfolding the monad. -/
theorem except_bind_error {ε α β : Type} (e : ε) (f : α → Except ε β) :
    (Except.error e >>= f : Except ε β) = Except.error e := rfl

/-- Generic preservation of a state predicate along foldlM over Except. -/
theorem foldlM_except_preserves {α : Type}
    (f : DiscoverState → α → Except String DiscoverState) (P : DiscoverState → Prop) :
    ∀ (l : List α) (st st' : DiscoverState),
    (∀ a ∈ l, ∀ s s', P s → f s a = .ok s' → P s') →
    P st → l.foldlM f st = .ok st' → P st' := by
  intro l
  induction l with
  | nil =>
    intro st st' _ hP h
    rw [List.foldlM_nil] at h
    have h2 : Except.ok st = Except.ok st' := h
    injection h2 with h2
    rw [← h2]
    exact hP
  | cons a l ih =>
    intro st st' hf hP h
    rw [List.foldlM_cons] at h
    cases hfa : f st a with
    | error e =>
      rw [hfa, except_bind_error] at h
      exact Except.noConfusion h
    | ok s =>
      rw [hfa, except_bind_ok] at h
      exact ih s st' (fun x hx s1 s2 => hf x (List.mem_cons_of_mem a hx) s1 s2)
        (hf a (List.mem_cons_self a l) st s hP hfa) h

/-- Processing one requirement never touches the interned solvables. -/
theorem processRequirement_keeps_solvables :
    ∀ (env : List (String × String)) (st : DiscoverState) (sv : String × Version)
      (r : Requirement) (st' : DiscoverState),
    processRequirement env st sv r = .ok st' → st'.solvables = st.solvables := by
  intro env st sv r st' h
  have haddr : ∀ s : DiscoverState,
      (processRequirement.addRequirement s sv r).solvables = s.solvables := by
    intro s
    unfold processRequirement.addRequirement
    split <;> rfl
  unfold processRequirement at h
  cases hm : r.env_marker_expr with
  | none =>
    simp only [hm] at h
    have h2 : Except.ok (processRequirement.addRequirement st sv r) = Except.ok st' := h
    injection h2 with h2
    rw [← h2]
    exact haddr st
  | some m =>
    simp only [hm] at h
    cases he : MarkerExpr.eval env m with
    | error e =>
      rw [he, except_bind_error] at h
      exact Except.noConfusion h
    | ok b =>
      rw [he, except_bind_ok] at h
      cases b with
      | false =>
        have h2 : Except.ok st = Except.ok st' := h
        injection h2 with h2
        rw [← h2]
      | true =>
        have h2 : Except.ok (processRequirement.addRequirement st sv r) = Except.ok st' := h
        injection h2 with h2
        rw [← h2]
        exact haddr st

/-- Counterexample for C2: at a version whose only format-surviving
artifact (a stable wheel) is yanked, a non-yanked sdist makes the yanked
gate pass, so the version is not dropped and a solvable is interned,
contrary to the claim that only surviving-format artifacts are consulted. -/
theorem yanked_wheel_rescued_by_sdist :
    processVersion dbRescue markerEnv "pkg" (initState ["pkg"]) vOne
        [yankedWheel, freshSdist] =
      .ok { queue := ["pkg"], seen := ["pkg"], solvables := [("pkg", vOne)],
            dependencies := [] } := by
  rfl

/-- C2 amended: the yanked gate of processVersion consults the full
artifact list of the version, not only the format-surviving one: when the
wheel and pre/dev filter leaves at least one artifact, the version is
dropped (state returned unchanged) exactly when every artifact of any
format is yanked; and when some artifact, possibly an sdist, is not
yanked, any successful processing interns the solvable for the version. -/
theorem yanked_gate_considers_all_artifacts :
    ∀ (db : PackageDb) (env : List (String × String)) (package : String)
      (st : DiscoverState) (version : Version) (artifacts : List ArtifactInfo),
    ((artifacts.filter (fun a => a.kind == ArtifactKind.wheel)).filter
        (fun a => a.filename_version.pre.isNone && a.filename_version.dev.isNone)).isEmpty
      = false →
    ((processVersion db env package st version artifacts = .ok st ↔
        ∀ a ∈ artifacts, a.yanked.yanked = true) ∧
      (∀ st', (∃ a ∈ artifacts, a.yanked.yanked = false) →
        processVersion db env package st version artifacts = .ok st' →
        st'.solvables = st.solvables ++ [(package, version)])) := by
  intro db env package st version artifacts havail
  unfold processVersion
  rw [if_neg (by rw [havail]; exact Bool.false_ne_true)]
  constructor
  · constructor
    · intro hok
      by_cases hy : (artifacts.filter (fun a => !a.yanked.yanked)).isEmpty = true
      · intro a ha
        have hnil : artifacts.filter (fun a => !a.yanked.yanked) = [] :=
          List.isEmpty_iff.mp hy
        by_contra hne
        have hmem : a ∈ artifacts.filter (fun a => !a.yanked.yanked) := by
          rw [List.mem_filter]
          refine ⟨ha, by simp [Bool.not_eq_true] at hne ⊢; exact hne⟩
        rw [hnil] at hmem
        cases hmem
      · rw [if_neg hy] at hok
        cases hgm : db.get_metadata artifacts with
        | error e =>
          rw [hgm] at hok
          exact Except.noConfusion hok
        | ok m =>
          rw [hgm] at hok
          have hsolv := foldlM_except_preserves
            (fun s r => processRequirement env s (package, version) r)
            (fun s => s.solvables = st.solvables ++ [(package, version)])
            m.requires_dist _ st
            (fun r _ s s' hP hstep =>
              (processRequirement_keeps_solvables env s (package, version) r s' hstep).trans hP)
            rfl hok
          have hlen := congrArg List.length hsolv
          simp at hlen
    · intro hall
      rw [if_pos ?_]
      rw [List.isEmpty_iff, List.filter_eq_nil_iff]
      intro a ha
      simp [hall a ha]
  · intro st' hex hok
    obtain ⟨a, ha, hay⟩ := hex
    have hy : (artifacts.filter (fun a => !a.yanked.yanked)).isEmpty = false := by
      rw [List.isEmpty_eq_false]
      intro hnil
      have hmem : a ∈ artifacts.filter (fun a => !a.yanked.yanked) := by
        rw [List.mem_filter]
        exact ⟨ha, by simp [hay]⟩
      rw [hnil] at hmem
      cases hmem
    rw [if_neg (by rw [hy]; exact Bool.false_ne_true)] at hok
    cases hgm : db.get_metadata artifacts with
    | error e =>
      rw [hgm] at hok
      exact Except.noConfusion hok
    | ok m =>
      rw [hgm] at hok
      exact foldlM_except_preserves
        (fun s r => processRequirement env s (package, version) r)
        (fun s => s.solvables = st.solvables ++ [(package, version)])
        m.requires_dist _ st'
        (fun r _ s s' hP hstep =>
          (processRequirement_keeps_solvables env s (package, version) r s' hstep).trans hP)
        rfl hok

/-- Witness for C2: a version whose only artifact is a yanked stable
wheel is dropped with the state unchanged. -/
theorem yanked_gate_considers_all_artifacts_witness :
    processVersion dbRescue markerEnv "pkg" (initState []) vOne [yankedWheel] =
      .ok (initState []) :=
  ((yanked_gate_considers_all_artifacts dbRescue markerEnv "pkg" (initState []) vOne
    [yankedWheel] (by rfl)).1).mpr (by decide)

/-- C5: an error from available_artifacts only skips the package (the
loop state is returned unchanged and the resolution continues), while an
error from get_metadata for a version whose artifacts passed both filters
propagates and makes the whole package processing fail. -/
theorem artifact_error_skips_metadata_error_fatal :
    ∀ (db : PackageDb) (env : List (String × String)) (st : DiscoverState)
      (package : String),
    (∀ e, db.available_artifacts package = .error e →
        processPackage db env st package = .ok st) ∧
    (∀ (version : Version) (arts : List ArtifactInfo) rest e,
        db.available_artifacts package = .ok ((version, arts) :: rest) →
        ((arts.filter (fun a => a.kind == ArtifactKind.wheel)).filter
            (fun a => a.filename_version.pre.isNone && a.filename_version.dev.isNone)).isEmpty
          = false →
        (arts.filter (fun a => !a.yanked.yanked)).isEmpty = false →
        db.get_metadata arts = .error e →
        processPackage db env st package = .error e) := by
  intro db env st package
  constructor
  · intro e he
    unfold processPackage
    rw [he]
  · intro version arts rest e ha hav hy hgm
    unfold processPackage
    rw [ha]
    dsimp only
    rw [List.foldlM_cons]
    have hpv : processVersion db env package st version arts = .error e := by
      unfold processVersion
      rw [if_neg (by rw [hav]; exact Bool.false_ne_true)]
      rw [if_neg (by rw [hy]; exact Bool.false_ne_true)]
      rw [hgm]
    dsimp only
    rw [hpv, except_bind_error]

/-- Witness for C5: an offline index is skipped with the state unchanged,
while a broken metadata download for a filtered version is fatal. -/
theorem artifact_error_skips_metadata_error_fatal_witness :
    processPackage dbOffline markerEnv (initState []) "a" = .ok (initState []) ∧
    processPackage dbBrokenMetadata markerEnv (initState []) "b" =
      .error "download failed" :=
  ⟨(artifact_error_skips_metadata_error_fatal dbOffline markerEnv (initState []) "a").1
      "offline" rfl,
   (artifact_error_skips_metadata_error_fatal dbBrokenMetadata markerEnv
      (initState []) "b").2 vOne [okWheel] [] "download failed" rfl (by rfl) (by rfl) rfl⟩

/-- C6: sort_candidates sorts any duplicate-free candidate list into
strictly descending order of the underlying total (PEP 440) version
order: every element is greater than its successor. -/
theorem sort_candidates_strict_descending :
    ∀ {α : Type} [LinearOrder α] (l : List α),
    l.Nodup → (sort_candidates l).Chain' (fun a b => a > b) := by
  intro α inst l hnd
  have htrans : ∀ a b c : α, decide (b ≤ a) = true → decide (c ≤ b) = true →
      decide (c ≤ a) = true := by
    intro a b c h1 h2
    rw [decide_eq_true_eq] at h1 h2 ⊢
    exact le_trans h2 h1
  have htotal : ∀ a b : α, (decide (b ≤ a) || decide (a ≤ b)) = true := by
    intro a b
    rcases le_total a b with h | h <;> simp [h]
  have hs := @List.sorted_mergeSort α (fun a b => decide (b ≤ a)) htrans htotal l
  have hge : (l.mergeSort (fun a b => decide (b ≤ a))).Pairwise (fun a b => b ≤ a) :=
    hs.imp (fun h => decide_eq_true_eq.mp h)
  have hnd2 : (l.mergeSort (fun a b => decide (b ≤ a))).Nodup :=
    (List.mergeSort_perm l (fun a b => decide (b ≤ a))).symm.nodup hnd
  have hlt := (hge.and hnd2).imp
    (fun h => lt_of_le_of_ne h.1 (Ne.symm h.2))
  exact hlt.chain'

/-- Witness for C6: a concrete duplicate-free list sorts strictly
descending. -/
theorem sort_candidates_strict_descending_witness :
    ([5, 2, 9] : List Nat).Nodup ∧
    (sort_candidates ([5, 2, 9] : List Nat)).Chain' (fun a b => a > b) :=
  ⟨by decide, sort_candidates_strict_descending ([5, 2, 9] : List Nat) (by decide)⟩

/-- Solvables interned by a version whose surviving artifact list is
nonempty carry no pre or dev component, assuming the filename versions
agree with the version key. -/
theorem processVersion_keeps_stable :
    ∀ (db : PackageDb) (env : List (String × String)) (package : String)
      (st : DiscoverState) (version : Version) (arts : List ArtifactInfo)
      (st' : DiscoverState),
    (∀ a ∈ arts, a.filename_version = version) →
    processVersion db env package st version arts = .ok st' →
    (∀ pv ∈ st.solvables, (pv : String × Version).2.pre = none ∧ pv.2.dev = none) →
    (∀ pv ∈ st'.solvables, pv.2.pre = none ∧ pv.2.dev = none) := by
  intro db env package st version arts st' hva h hst
  unfold processVersion at h
  by_cases hav : ((arts.filter (fun a => a.kind == ArtifactKind.wheel)).filter
      (fun a => a.filename_version.pre.isNone && a.filename_version.dev.isNone)).isEmpty = true
  · rw [if_pos hav] at h
    have h2 : Except.ok st = Except.ok st' := h
    injection h2 with h2
    rw [← h2]
    exact hst
  · rw [if_neg hav] at h
    by_cases hy : (arts.filter (fun a => !a.yanked.yanked)).isEmpty = true
    · rw [if_pos hy] at h
      have h2 : Except.ok st = Except.ok st' := h
      injection h2 with h2
      rw [← h2]
      exact hst
    · rw [if_neg hy] at h
      cases hgm : db.get_metadata arts with
      | error e =>
        rw [hgm] at h
        exact Except.noConfusion h
      | ok m =>
        rw [hgm] at h
        have hvg : version.pre = none ∧ version.dev = none := by
          have hne : ((arts.filter (fun a => a.kind == ArtifactKind.wheel)).filter
              (fun a => a.filename_version.pre.isNone && a.filename_version.dev.isNone)) ≠ [] := by
            intro hnil
            rw [hnil] at hav
            exact hav rfl
          obtain ⟨a, ha⟩ := List.exists_mem_of_ne_nil _ hne
          rw [List.mem_filter] at ha
          obtain ⟨ha1, ha2⟩ := ha
          rw [List.mem_filter] at ha1
          obtain ⟨hmem, _⟩ := ha1
          rw [Bool.and_eq_true, Option.isNone_iff_eq_none, Option.isNone_iff_eq_none] at ha2
          rw [← hva a hmem]
          exact ha2
        exact foldlM_except_preserves
          (fun s r => processRequirement env s (package, version) r)
          (fun s => ∀ pv ∈ s.solvables, (pv : String × Version).2.pre = none ∧ pv.2.dev = none)
          m.requires_dist _ st'
          (fun r _ s s' hP hstep => by
            have hkeep := processRequirement_keeps_solvables env s (package, version) r s' hstep
            intro pv hpv
            rw [hkeep] at hpv
            exact hP pv hpv)
          (by
            intro pv hpv
            rcases List.mem_append.mp hpv with hold | hnew
            · exact hst pv hold
            · rw [List.mem_singleton] at hnew
              subst hnew
              exact hvg) h

/-- Processing one popped package only interns solvables at stable
versions, given a well-formed index. -/
theorem processPackage_keeps_stable :
    ∀ (db : PackageDb) (env : List (String × String)) (st : DiscoverState)
      (package : String) (st' : DiscoverState),
    WellFormedDb db →
    processPackage db env st package = .ok st' →
    (∀ pv ∈ st.solvables, (pv : String × Version).2.pre = none ∧ pv.2.dev = none) →
    (∀ pv ∈ st'.solvables, pv.2.pre = none ∧ pv.2.dev = none) := by
  intro db env st package st' hwf h hst
  unfold processPackage at h
  cases ha : db.available_artifacts package with
  | error e =>
    rw [ha] at h
    have h2 : Except.ok st = Except.ok st' := h
    injection h2 with h2
    rw [← h2]
    exact hst
  | ok l =>
    rw [ha] at h
    dsimp only at h
    exact foldlM_except_preserves
      (fun s va => processVersion db env package s va.1 va.2)
      (fun s => ∀ pv ∈ s.solvables, (pv : String × Version).2.pre = none ∧ pv.2.dev = none)
      l st st'
      (fun va hva s s' hP hstep =>
        processVersion_keeps_stable db env package s va.1 va.2 s'
          (fun a hart => hwf package l ha va hva a hart) hstep hP)
      hst h

/-- The discovery loop preserves stability of all interned solvables. -/
theorem discoverLoop_keeps_stable :
    ∀ (db : PackageDb) (env : List (String × String)), WellFormedDb db →
    ∀ (fuel : Nat) (st st' : DiscoverState),
    discoverLoop db env fuel st = .ok st' →
    (∀ pv ∈ st.solvables, (pv : String × Version).2.pre = none ∧ pv.2.dev = none) →
    (∀ pv ∈ st'.solvables, pv.2.pre = none ∧ pv.2.dev = none) := by
  intro db env hwf fuel
  induction fuel with
  | zero =>
    intro st st' h hst
    have h2 : Except.ok st = Except.ok st' := h
    injection h2 with h2
    rw [← h2]
    exact hst
  | succ n ih =>
    intro st st' h hst
    unfold discoverLoop at h
    cases hq : st.queue with
    | nil =>
      rw [hq] at h
      have h2 : Except.ok st = Except.ok st' := h
      injection h2 with h2
      rw [← h2]
      exact hst
    | cons p rest =>
      rw [hq] at h
      dsimp only at h
      cases hp : processPackage db env { st with queue := rest } p with
      | error e =>
        rw [hp] at h
        exact Except.noConfusion h
      | ok s =>
        rw [hp] at h
        exact ih s st' h (processPackage_keeps_stable db env _ p s hwf hp hst)

/-- C7: with a well-formed index, the discovery loop started from the
initial state interns no solvable at a version whose pre or dev
component is set, and consequently any resolver output drawn from the
interned solvables contains no pre-release or dev-release version. -/
theorem no_pre_dev_solvables :
    ∀ (db : PackageDb) (env : List (String × String)) (roots : List String)
      (fuel : Nat) (st' : DiscoverState),
    WellFormedDb db →
    discoverLoop db env fuel (initState roots) = .ok st' →
    ((∀ pv ∈ st'.solvables, (pv : String × Version).2.pre = none ∧ pv.2.dev = none) ∧
      ∀ output : List (String × Version), (∀ s ∈ output, s ∈ st'.solvables) →
        ∀ pv ∈ output, pv.2.pre = none ∧ pv.2.dev = none) := by
  intro db env roots fuel st' hwf h
  have hmain := discoverLoop_keeps_stable db env hwf fuel (initState roots) st' h
    (by intro pv hpv; cases hpv)
  exact ⟨hmain, fun output hsub pv hpv => hmain pv (hsub pv hpv)⟩

/-- Witness for C7: a concrete index offering a pre-release wheel and a
stable wheel; only the stable version is interned, and it has no pre or
dev component. -/
theorem no_pre_dev_solvables_witness :
    ("root", vOne).2.pre = none ∧ ("root", vOne).2.dev = none :=
  (no_pre_dev_solvables dbPre markerEnv ["root"] 2
      ⟨[], ["root"], [("root", vOne)], []⟩
      (by
        intro p l h
        by_cases hp : (p == "root") = true
        · have h2 : (Except.ok [(vPre, [preWheel]), (vOne, [okWheel])] :
              Except String (List (Version × List ArtifactInfo))) = Except.ok l := by
            rw [← h]
            show _ = dbPre.available_artifacts p
            unfold dbPre
            dsimp only
            rw [if_pos hp]
          injection h2 with h2
          rw [← h2]
          decide
        · have h2 : (Except.error "unknown package" :
              Except String (List (Version × List ArtifactInfo))) = Except.ok l := by
            rw [← h]
            show _ = dbPre.available_artifacts p
            unfold dbPre
            dsimp only
            rw [if_neg hp]
          exact Except.noConfusion h2)
      (by rfl)).1 ("root", vOne) (List.mem_singleton.mpr rfl)

/-- Reach is reflexive on states with a duplicate-free seen list. -/
theorem reach_refl (univ : List String) (st : DiscoverState)
    (h : st.seen.Nodup) : Reach univ st st :=
  ⟨[], by simp, by simp, by simpa, by simp⟩

/-- Reach composes. -/
theorem reach_trans {univ : List String} {st1 st2 st3 : DiscoverState}
    (h1 : Reach univ st1 st2) (h2 : Reach univ st2 st3) : Reach univ st1 st3 := by
  obtain ⟨d1, hq1, hs1, hn1, hu1⟩ := h1
  obtain ⟨d2, hq2, hs2, hn2, hu2⟩ := h2
  refine ⟨d1 ++ d2, ?_, ?_, ?_, ?_⟩
  · rw [hq2, hq1, List.append_assoc]
  · rw [hs2, hs1, List.append_assoc]
  · rw [hs1] at hn2
    rwa [List.append_assoc] at hn2
  · intro n hn
    rcases List.mem_append.mp hn with h | h
    · exact hu1 n h
    · exact hu2 n h

/-- A Reach target inherits a duplicate-free seen list. -/
theorem reach_nodup {univ : List String} {st st' : DiscoverState}
    (h : Reach univ st st') : st'.seen.Nodup := by
  obtain ⟨d, _, hs, hn, _⟩ := h
  rw [hs]
  exact hn

/-- One requirement step extends queue and seen together by at most one
fresh name from the universe. -/
theorem processRequirement_reach :
    ∀ (univ : List String) (env : List (String × String)) (st : DiscoverState)
      (sv : String × Version) (r : Requirement) (st' : DiscoverState),
    r.name ∈ univ → st.seen.Nodup →
    processRequirement env st sv r = .ok st' → Reach univ st st' := by
  intro univ env st sv r st' hn hnd h
  have haddr : Reach univ st (processRequirement.addRequirement st sv r) := by
    unfold processRequirement.addRequirement
    by_cases hc : st.seen.contains r.name = true
    · rw [if_pos hc]
      exact ⟨[], by simp, by simp, by simpa, by simp⟩
    · rw [if_neg hc]
      refine ⟨[r.name], by simp, by simp, ?_, by simpa⟩
      rw [List.nodup_append]
      refine ⟨hnd, List.nodup_singleton _, ?_⟩
      intro a ha hb
      rw [List.mem_singleton] at hb
      subst hb
      have hnm : r.name ∉ st.seen := by simpa using hc
      exact hnm ha
  unfold processRequirement at h
  cases hm : r.env_marker_expr with
  | none =>
    simp only [hm] at h
    have h2 : Except.ok (processRequirement.addRequirement st sv r) = Except.ok st' := h
    injection h2 with h2
    rw [← h2]
    exact haddr
  | some m =>
    simp only [hm] at h
    cases he : MarkerExpr.eval env m with
    | error e =>
      rw [he, except_bind_error] at h
      exact Except.noConfusion h
    | ok b =>
      rw [he, except_bind_ok] at h
      cases b with
      | false =>
        have h2 : Except.ok st = Except.ok st' := h
        injection h2 with h2
        rw [← h2]
        exact reach_refl univ st hnd
      | true =>
        have h2 : Except.ok (processRequirement.addRequirement st sv r) = Except.ok st' := h
        injection h2 with h2
        rw [← h2]
        exact haddr

/-- One version step extends queue and seen together by fresh universe
names, given a database closed under the universe. -/
theorem processVersion_reach :
    ∀ (univ : List String) (db : PackageDb) (env : List (String × String))
      (package : String) (st : DiscoverState) (version : Version)
      (arts : List ArtifactInfo) (st' : DiscoverState),
    ClosedDb db univ → st.seen.Nodup →
    processVersion db env package st version arts = .ok st' → Reach univ st st' := by
  intro univ db env package st version arts st' hcl hnd h
  unfold processVersion at h
  by_cases hav : ((arts.filter (fun a => a.kind == ArtifactKind.wheel)).filter
      (fun a => a.filename_version.pre.isNone && a.filename_version.dev.isNone)).isEmpty = true
  · rw [if_pos hav] at h
    have h2 : Except.ok st = Except.ok st' := h
    injection h2 with h2
    rw [← h2]
    exact reach_refl univ st hnd
  · rw [if_neg hav] at h
    by_cases hy : (arts.filter (fun a => !a.yanked.yanked)).isEmpty = true
    · rw [if_pos hy] at h
      have h2 : Except.ok st = Except.ok st' := h
      injection h2 with h2
      rw [← h2]
      exact reach_refl univ st hnd
    · rw [if_neg hy] at h
      cases hgm : db.get_metadata arts with
      | error e =>
        rw [hgm] at h
        exact Except.noConfusion h
      | ok m =>
        rw [hgm] at h
        have hstep : Reach univ st
            { st with solvables := st.solvables ++ [(package, version)] } :=
          ⟨[], by simp, by simp, by simpa, by simp⟩
        exact reach_trans hstep (foldlM_except_preserves
          (fun s r => processRequirement env s (package, version) r)
          (Reach univ { st with solvables := st.solvables ++ [(package, version)] })
          m.requires_dist _ st'
          (fun r hr s s' hP hpr =>
            reach_trans hP (processRequirement_reach univ env s (package, version) r s'
              (hcl arts m hgm r hr) (reach_nodup hP) hpr))
          (reach_refl univ _ hnd) h)

/-- One package step extends queue and seen together by fresh universe
names. -/
theorem processPackage_reach :
    ∀ (univ : List String) (db : PackageDb) (env : List (String × String))
      (st : DiscoverState) (package : String) (st' : DiscoverState),
    ClosedDb db univ → st.seen.Nodup →
    processPackage db env st package = .ok st' → Reach univ st st' := by
  intro univ db env st package st' hcl hnd h
  unfold processPackage at h
  cases ha : db.available_artifacts package with
  | error e =>
    rw [ha] at h
    have h2 : Except.ok st = Except.ok st' := h
    injection h2 with h2
    rw [← h2]
    exact reach_refl univ st hnd
  | ok l =>
    rw [ha] at h
    dsimp only at h
    exact foldlM_except_preserves
      (fun s va => processVersion db env package s va.1 va.2)
      (Reach univ st) l st st'
      (fun va _ s s' hP hpv =>
        reach_trans hP (processVersion_reach univ db env package s va.1 va.2 s'
          hcl (reach_nodup hP) hpv))
      (reach_refl univ st hnd) h

/-- The discovery loop only appends fresh universe names to the seen
list. -/
theorem discoverLoop_seen_extends :
    ∀ (univ : List String) (db : PackageDb) (env : List (String × String)),
    ClosedDb db univ →
    ∀ (fuel : Nat) (st st' : DiscoverState), st.seen.Nodup →
    discoverLoop db env fuel st = .ok st' → SeenExt univ st st' := by
  intro univ db env hcl fuel
  induction fuel with
  | zero =>
    intro st st' hnd h
    have h2 : Except.ok st = Except.ok st' := h
    injection h2 with h2
    rw [← h2]
    exact ⟨[], by simp, by simpa, by simp⟩
  | succ n ih =>
    intro st st' hnd h
    unfold discoverLoop at h
    cases hq : st.queue with
    | nil =>
      rw [hq] at h
      have h2 : Except.ok st = Except.ok st' := h
      injection h2 with h2
      rw [← h2]
      exact ⟨[], by simp, by simpa, by simp⟩
    | cons p rest =>
      rw [hq] at h
      dsimp only at h
      cases hp : processPackage db env { st with queue := rest } p with
      | error e =>
        rw [hp] at h
        exact Except.noConfusion h
      | ok s =>
        rw [hp] at h
        have hr : Reach univ { st with queue := rest } s :=
          processPackage_reach univ db env _ p s hcl hnd hp
        obtain ⟨d, _, hs2, hn2, hu2⟩ := hr
        obtain ⟨d2, hs3, hn3, hu3⟩ := ih s st' (by rw [hs2]; exact hn2) h
        refine ⟨d ++ d2, ?_, ?_, ?_⟩
        · rw [hs3, hs2, List.append_assoc]
        · rw [hs2] at hn3
          rwa [List.append_assoc] at hn3
        · intro x hx
          rcases List.mem_append.mp hx with hx | hx
          · exact hu2 x hx
          · exact hu3 x hx

/-- The discovery loop halts within the measure: with enough fuel it
either fails or empties its queue. -/
theorem discoverLoop_halts :
    ∀ (univ : List String) (db : PackageDb) (env : List (String × String)),
    ClosedDb db univ →
    ∀ (fuel : Nat) (st : DiscoverState), st.seen.Nodup →
    (∀ n ∈ st.seen, n ∈ univ) → discMeasure univ st ≤ fuel →
    (∃ e, discoverLoop db env fuel st = .error e) ∨
    (∃ st', discoverLoop db env fuel st = .ok st' ∧ st'.queue = []) := by
  intro univ db env hcl fuel
  induction fuel with
  | zero =>
    intro st hnd hsub hm
    right
    refine ⟨st, rfl, ?_⟩
    unfold discMeasure at hm
    have hlen : st.queue.length = 0 := by omega
    exact List.length_eq_zero.mp hlen
  | succ n ih =>
    intro st hnd hsub hm
    cases hq : st.queue with
    | nil =>
      right
      refine ⟨st, ?_, hq⟩
      unfold discoverLoop
      rw [hq]
    | cons p rest =>
      cases hp : processPackage db env { st with queue := rest } p with
      | error e =>
        left
        refine ⟨e, ?_⟩
        unfold discoverLoop
        rw [hq]
        dsimp only
        rw [hp]
      | ok s =>
        have hr : Reach univ { st with queue := rest } s :=
          processPackage_reach univ db env _ p s hcl hnd hp
        obtain ⟨d, hq2, hs2, hn2, hu2⟩ := hr
        have hnds : s.seen.Nodup := by rw [hs2]; exact hn2
        have hsubs : ∀ x ∈ s.seen, x ∈ univ := by
          intro x hx
          rw [hs2] at hx
          rcases List.mem_append.mp hx with hx | hx
          · exact hsub x hx
          · exact hu2 x hx
        have hlen : s.seen.length ≤ univ.length :=
          (hnds.subperm (fun x hx => hsubs x hx)).length_le
        have hms : discMeasure univ s ≤ n := by
          unfold discMeasure at hm ⊢
          have e1 : s.queue.length = rest.length + d.length := by
            rw [hq2]
            simp
          have e2 : s.seen.length = st.seen.length + d.length := by
            rw [hs2]
            simp
          have e3 : st.queue.length = rest.length + 1 := by
            rw [hq]
            simp
          omega
        rcases ih s hnds hsubs hms with ⟨e, he⟩ | ⟨st', h1, h2⟩
        · left
          refine ⟨e, ?_⟩
          unfold discoverLoop
          rw [hq]
          dsimp only
          rw [hp]
          exact he
        · right
          refine ⟨st', ?_, h2⟩
          unfold discoverLoop
          rw [hq]
          dsimp only
          rw [hp]
          exact h1

/-- C8: with the seen list doubling as the enqueue history, every name
is enqueued at most once (the final seen list is duplicate-free and only
extends the roots), and the loop terminates: with fuel at least the
measure (queue length plus unseen universe names) the loop either fails
or ends with an empty queue. -/
theorem names_enqueued_once_and_loop_terminates :
    ∀ (db : PackageDb) (env : List (String × String)) (univ roots : List String),
    ClosedDb db univ → roots.Nodup → (∀ n ∈ roots, n ∈ univ) →
    ((∀ fuel st', discoverLoop db env fuel (initState roots) = .ok st' →
        st'.seen.Nodup ∧ ∃ d, st'.seen = roots ++ d) ∧
      (∀ fuel, discMeasure univ (initState roots) ≤ fuel →
        (∃ e, discoverLoop db env fuel (initState roots) = .error e) ∨
        (∃ st', discoverLoop db env fuel (initState roots) = .ok st' ∧
          st'.queue = []))) := by
  intro db env univ roots hcl hroots hsub
  constructor
  · intro fuel st' h
    obtain ⟨d, hs, hn, _⟩ :=
      discoverLoop_seen_extends univ db env hcl fuel (initState roots) st' hroots h
    exact ⟨by rw [hs]; exact hn, ⟨d, hs⟩⟩
  · intro fuel hm
    exact discoverLoop_halts univ db env hcl fuel (initState roots) hroots hsub hm

/-- Witness for C8: on a one-package universe the loop empties its queue
within one step of fuel, which equals the measure. -/
theorem names_enqueued_once_witness :
    (∃ e, discoverLoop dbPre markerEnv 1 (initState ["root"]) = .error e) ∨
    (∃ st', discoverLoop dbPre markerEnv 1 (initState ["root"]) = .ok st' ∧
      st'.queue = []) :=
  (names_enqueued_once_and_loop_terminates dbPre markerEnv ["root"] ["root"]
      (by
        intro arts m h r hr
        have h2 : Except.ok emptyMetadata = Except.ok m := h
        injection h2 with h2
        rw [← h2] at hr
        cases hr)
      (by decide) (by decide)).2 1 (by decide)
